import Mathlib

/-!
Shallow embedding of the `asprim` crate (src/lib.rs).

The crate defines a single trait `AsPrim` with one conversion method per
primitive numeric target type (`as_u8`, ..., `as_f64`), a generic
constructor `cast_from`, and a generic dispatch `as_` defined as
`T::cast_from(self)`.  A macro implements the trait identically for each
of the 14 primitive numeric types, every method body being `self as Target`.

We model the 14 types as an enumeration `Ty`, values as `PVal` (an `Int`
for integer variants, an `FP` for the two floating variants), and the
semantics of Rust's `as` operator as `asCast`.  `usize`/`isize` are
modelled at pointer width 64.  Floating-point values are modelled as
NaN, signed infinity, or a finite rational; this captures exactly the
cast behaviour the crate relies on (truncation toward zero, saturation,
NaN-to-zero, round-to-nearest-even with overflow to infinity).
-/

/-- The 14 primitive numeric types implementing `AsPrim`, in the order of
the macro invocation at the bottom of src/lib.rs. -/
inductive Ty where
  | u8 | i8 | u16 | i16 | u32 | i32
  | u128 | i128
  | u64 | i64 | usize | isize | f32 | f64
deriving DecidableEq, Repr

/-- Whether the type is one of the two floating-point variants. -/
def Ty.isFloat : Ty → Bool
  | .f32 => true
  | .f64 => true
  | _ => false

/-- Signedness of the integer variants (unused junk `false` for floats). -/
def Ty.sgn : Ty → Bool
  | .i8 => true
  | .i16 => true
  | .i32 => true
  | .i64 => true
  | .i128 => true
  | .isize => true
  | _ => false

/-- Bit width of the variant; `usize`/`isize` are modelled at 64 bits. -/
def Ty.w : Ty → Nat
  | .u8 => 8
  | .i8 => 8
  | .u16 => 16
  | .i16 => 16
  | .u32 => 32
  | .i32 => 32
  | .u64 => 64
  | .i64 => 64
  | .u128 => 128
  | .i128 => 128
  | .usize => 64
  | .isize => 64
  | .f32 => 32
  | .f64 => 64

/-- Significand precision of the floating variants (junk 0 for integers). -/
def Ty.prec : Ty → Nat
  | .f32 => 24
  | .f64 => 53
  | _ => 0

/-- Minimum scale exponent of the floating variants (junk 0 for integers). -/
def Ty.smin : Ty → Int
  | .f32 => -149
  | .f64 => -1074
  | _ => 0

/-- Largest finite value of the floating variants (junk 0 for integers). -/
def Ty.maxF : Ty → ℚ
  | .f32 => (2 ^ 24 - 1) * 2 ^ 104
  | .f64 => (2 ^ 53 - 1) * 2 ^ 971
  | _ => 0

/-- A floating-point value: NaN, an infinity (`true` = negative), or a
finite value given by its exact rational magnitude. -/
inductive FP where
  | nan : FP
  | inf : Bool → FP
  | finite : ℚ → FP
deriving DecidableEq

/-- A primitive numeric value: an integer or a floating-point value. -/
inductive PVal where
  | i : Int → PVal
  | f : FP → PVal
deriving DecidableEq

/-- Smallest value of an integer variant of the given signedness/width. -/
def intMin (sgn : Bool) (w : Nat) : Int :=
  if sgn then -(2 ^ (w - 1)) else 0

/-- Largest value of an integer variant of the given signedness/width. -/
def intMax (sgn : Bool) (w : Nat) : Int :=
  if sgn then 2 ^ (w - 1) - 1 else 2 ^ w - 1

/-- The representable range of an integer variant. -/
def inRange (t : Ty) (x : Int) : Prop :=
  intMin t.sgn t.w ≤ x ∧ x ≤ intMax t.sgn t.w

instance (t : Ty) (x : Int) : Decidable (inRange t x) :=
  inferInstanceAs (Decidable (_ ∧ _))

/-- Well-formedness: the value fits the variant (integer payload in range
for integer variants, floating payload for floating variants). -/
def wf (t : Ty) (v : PVal) : Prop :=
  match v with
  | .i x => t.isFloat = false ∧ inRange t x
  | .f _ => t.isFloat = true

instance : (t : Ty) → (v : PVal) → Decidable (wf t v)
  | _, .i _ => inferInstanceAs (Decidable (_ ∧ _))
  | _, .f _ => inferInstanceAs (Decidable (_ = _))

/-- Rust `as` between integer types: reduce into the target's range by
two's-complement wrap-around (truncation / sign- or zero-extension /
same-width bit-pattern reinterpretation all coincide with this). -/
def iwrap (sgn : Bool) (w : Nat) (x : Int) : Int :=
  if sgn then (x + 2 ^ (w - 1)) % 2 ^ w - 2 ^ (w - 1)
  else x % 2 ^ w

/-- Floor of the base-2 logarithm of a positive rational. -/
def rlog2 (q : ℚ) : Int :=
  let k : Int := (Nat.log2 q.num.natAbs : Int) - (Nat.log2 q.den : Int)
  if (2 : ℚ) ^ k ≤ q then k else k - 1

/-- Nearest integer to a rational, ties to even. -/
def rne (t : ℚ) : Int :=
  let n := t.floor
  let frac := t - (n : ℚ)
  if frac < 1 / 2 then n
  else if 1 / 2 < frac then n + 1
  else if n % 2 = 0 then n else n + 1

/-- Round a rational to the nearest floating-point value with significand
precision `prec`, minimum scale exponent `smin` and largest finite value
`maxF`, ties to even, overflowing to infinity (IEEE-754 / Rust `as`). -/
def roundFP (prec : Nat) (smin : Int) (maxF : ℚ) (q : ℚ) : FP :=
  if q = 0 then .finite 0
  else
    let e := rlog2 |q|
    let s := max (e - ((prec : Int) - 1)) smin
    let m := rne (q * (2 : ℚ) ^ (-s))
    let r := (m : ℚ) * (2 : ℚ) ^ s
    if r > maxF then .inf false
    else if r < -maxF then .inf true
    else .finite r

/-- Truncation of a rational toward zero (T-division of the numerator by
the denominator). -/
def rtrunc (q : ℚ) : Int :=
  q.num.tdiv q.den

/-- Rust `as` from a floating value to an integer type with range
`[lo, hi]`: NaN to 0, truncation toward zero, saturation at the bounds. -/
def fToInt (lo hi : Int) (v : FP) : Int :=
  match v with
  | .nan => 0
  | .inf neg => if neg then lo else hi
  | .finite q => min hi (max lo (rtrunc q))

/-- Rust `as` from `f64` to `f32`: NaN and infinities are preserved,
finite values are rounded to nearest `f32`, ties to even. -/
def fNarrow32 (v : FP) : FP :=
  match v with
  | .nan => .nan
  | .inf b => .inf b
  | .finite q => roundFP 24 (-149) ((2 ^ 24 - 1) * 2 ^ 104) q

/-- The semantics of the Rust expression `self as T` for `self : S`,
the body of every trait method generated by the `as_prim_impl!` macro. -/
def asCast (S T : Ty) (v : PVal) : PVal :=
  match v with
  | .i x =>
      if T.isFloat then .f (roundFP T.prec T.smin T.maxF (x : ℚ))
      else .i (iwrap T.sgn T.w x)
  | .f φ =>
      if T.isFloat then
        if S = Ty.f64 ∧ T = Ty.f32 then .f (fNarrow32 φ) else .f φ
      else .i (fToInt (intMin T.sgn T.w) (intMax T.sgn T.w) φ)

/-- Trait method `fn as_usize(self) -> usize { self as usize }`. -/
def as_usize (S : Ty) (v : PVal) : PVal := asCast S Ty.usize v

/-- Trait method `fn as_isize(self) -> isize { self as isize }`. -/
def as_isize (S : Ty) (v : PVal) : PVal := asCast S Ty.isize v

/-- Trait method `fn as_u128(self) -> u128 { self as u128 }`. -/
def as_u128 (S : Ty) (v : PVal) : PVal := asCast S Ty.u128 v

/-- Trait method `fn as_i128(self) -> i128 { self as i128 }`. -/
def as_i128 (S : Ty) (v : PVal) : PVal := asCast S Ty.i128 v

/-- Trait method `fn as_u64(self) -> u64 { self as u64 }`. -/
def as_u64 (S : Ty) (v : PVal) : PVal := asCast S Ty.u64 v

/-- Trait method `fn as_i64(self) -> i64 { self as i64 }`. -/
def as_i64 (S : Ty) (v : PVal) : PVal := asCast S Ty.i64 v

/-- Trait method `fn as_u32(self) -> u32 { self as u32 }`. -/
def as_u32 (S : Ty) (v : PVal) : PVal := asCast S Ty.u32 v

/-- Trait method `fn as_i32(self) -> i32 { self as i32 }`. -/
def as_i32 (S : Ty) (v : PVal) : PVal := asCast S Ty.i32 v

/-- Trait method `fn as_u16(self) -> u16 { self as u16 }`. -/
def as_u16 (S : Ty) (v : PVal) : PVal := asCast S Ty.u16 v

/-- Trait method `fn as_i16(self) -> i16 { self as i16 }`. -/
def as_i16 (S : Ty) (v : PVal) : PVal := asCast S Ty.i16 v

/-- Trait method `fn as_u8(self) -> u8 { self as u8 }`. -/
def as_u8 (S : Ty) (v : PVal) : PVal := asCast S Ty.u8 v

/-- Trait method `fn as_i8(self) -> i8 { self as i8 }`. -/
def as_i8 (S : Ty) (v : PVal) : PVal := asCast S Ty.i8 v

/-- Trait method `fn as_f32(self) -> f32 { self as f32 }`. -/
def as_f32 (S : Ty) (v : PVal) : PVal := asCast S Ty.f32 v

/-- Trait method `fn as_f64(self) -> f64 { self as f64 }`. -/
def as_f64 (S : Ty) (v : PVal) : PVal := asCast S Ty.f64 v

/-- Trait method `fn cast_from<T: AsPrim>(x: T) -> Self { x.$method() }`
where `$method` names the concrete conversion targeting `Self`:
the impl for `u8` calls `x.as_u8()`, the impl for `f64` calls
`x.as_f64()`, and so on. -/
def cast_from (selfTy S : Ty) (v : PVal) : PVal :=
  match selfTy with
  | .usize => as_usize S v
  | .isize => as_isize S v
  | .u128 => as_u128 S v
  | .i128 => as_i128 S v
  | .u64 => as_u64 S v
  | .i64 => as_i64 S v
  | .u32 => as_u32 S v
  | .i32 => as_i32 S v
  | .u16 => as_u16 S v
  | .i16 => as_i16 S v
  | .u8 => as_u8 S v
  | .i8 => as_i8 S v
  | .f32 => as_f32 S v
  | .f64 => as_f64 S v

/-- Generic dispatch `fn as_<T: AsPrim>(self) -> T { T::cast_from(self) }`. -/
def as_ (S T : Ty) (v : PVal) : PVal := cast_from T S v

/-- The target variants of the trait's explicit per-target conversion
methods, in declaration order (src/lib.rs lines 34-47). -/
def methodTargets : List Ty :=
  [Ty.usize, Ty.isize, Ty.u128, Ty.i128, Ty.u64, Ty.i64,
   Ty.u32, Ty.i32, Ty.u16, Ty.i16, Ty.u8, Ty.i8, Ty.f32, Ty.f64]

/-! ### Helper lemmas -/

theorem Ty.w_pos (t : Ty) : 1 ≤ t.w := by cases t <;> simp [Ty.w]

theorem iwrap_inRange (sgn : Bool) (w : Nat) (hw : 1 ≤ w) (x : Int) :
    intMin sgn w ≤ iwrap sgn w x ∧ iwrap sgn w x ≤ intMax sgn w := by
  obtain ⟨v, rfl⟩ : ∃ v, w = v + 1 := ⟨w - 1, by omega⟩
  have hpow : ((2 : Int) ^ (v + 1)) = 2 * 2 ^ v := by ring
  have hne : ((2 : Int) ^ (v + 1)) ≠ 0 := by positivity
  have hpos : (0 : Int) < 2 ^ (v + 1) := by positivity
  cases sgn with
  | false =>
    have h1 := Int.emod_nonneg x hne
    have h2 := Int.emod_lt_of_pos x hpos
    simp only [iwrap, intMin, intMax, if_false, Bool.false_eq_true]
    omega
  | true =>
    have h1 := Int.emod_nonneg (x + 2 ^ v) hne
    have h2 := Int.emod_lt_of_pos (x + 2 ^ v) hpos
    simp only [iwrap, intMin, intMax, if_true, Nat.add_sub_cancel]
    omega

theorem iwrap_id (sgn : Bool) (w : Nat) (hw : 1 ≤ w) (x : Int)
    (h1 : intMin sgn w ≤ x) (h2 : x ≤ intMax sgn w) : iwrap sgn w x = x := by
  obtain ⟨v, rfl⟩ : ∃ v, w = v + 1 := ⟨w - 1, by omega⟩
  have hpow : ((2 : Int) ^ (v + 1)) = 2 * 2 ^ v := by ring
  cases sgn with
  | false =>
    simp only [intMin, intMax, if_false, Bool.false_eq_true] at h1 h2
    simp only [iwrap, if_false, Bool.false_eq_true]
    exact Int.emod_eq_of_lt h1 (by omega)
  | true =>
    simp only [intMin, intMax, if_true, Nat.add_sub_cancel] at h1 h2
    simp only [iwrap, if_true, Nat.add_sub_cancel]
    rw [Int.emod_eq_of_lt (by omega) (by omega)]
    omega

theorem iwrap_emod (sgn : Bool) (w : Nat) (x : Int) :
    iwrap sgn w x % 2 ^ w = x % 2 ^ w := by
  cases sgn with
  | false => simp [iwrap, Int.emod_emod_of_dvd]
  | true =>
    simp only [iwrap, if_true]
    rw [Int.sub_emod, Int.emod_emod_of_dvd _ dvd_rfl, ← Int.sub_emod,
      add_sub_cancel_right]

theorem iwrap_congr (sgn : Bool) (w : Nat) {x y : Int}
    (h : x % 2 ^ w = y % 2 ^ w) : iwrap sgn w x = iwrap sgn w y := by
  cases sgn with
  | false => simpa [iwrap] using h
  | true =>
    simp only [iwrap, if_true]
    rw [Int.add_emod, h, ← Int.add_emod]

theorem intMin_nonpos (sgn : Bool) (w : Nat) : intMin sgn w ≤ 0 := by
  have : (0 : Int) < 2 ^ (w - 1) := by positivity
  cases sgn <;> simp only [intMin, if_true, if_false, Bool.false_eq_true] <;> omega

theorem intMax_nonneg (sgn : Bool) (w : Nat) : 0 ≤ intMax sgn w := by
  have h1 : (0 : Int) < 2 ^ (w - 1) := by positivity
  have h2 : (0 : Int) < 2 ^ w := by positivity
  cases sgn <;> simp only [intMax, if_true, if_false, Bool.false_eq_true] <;> omega

theorem fToInt_mem (lo hi : Int) (hlo : lo ≤ 0) (hhi : 0 ≤ hi) (v : FP) :
    lo ≤ fToInt lo hi v ∧ fToInt lo hi v ≤ hi := by
  have hlh : lo ≤ hi := le_trans hlo hhi
  cases v with
  | nan => exact ⟨hlo, hhi⟩
  | inf b => cases b <;> simp only [fToInt, if_true, if_false, Bool.false_eq_true] <;>
      exact ⟨by omega, by omega⟩
  | finite q =>
    simp only [fToInt]
    exact ⟨le_min hlh (le_max_left _ _), min_le_left _ _⟩

theorem wf_asCast (S T : Ty) (v : PVal) (h : wf S v) : wf T (asCast S T v) := by
  cases v with
  | i x =>
    rcases h with ⟨hS, hx⟩
    cases hT : T.isFloat with
    | true => simp only [asCast, hT, if_true]; exact hT
    | false =>
      simp only [asCast, hT, if_false, Bool.false_eq_true]
      exact ⟨hT, iwrap_inRange T.sgn T.w (Ty.w_pos T) x⟩
  | f φ =>
    have hS : S.isFloat = true := h
    cases hT : T.isFloat with
    | true =>
      simp only [asCast, hT, if_true]
      split <;> exact hT
    | false =>
      simp only [asCast, hT, if_false, Bool.false_eq_true]
      exact ⟨hT, fToInt_mem _ _ (intMin_nonpos T.sgn T.w) (intMax_nonneg T.sgn T.w) φ⟩

theorem as_eq_asCast (S T : Ty) (v : PVal) : as_ S T v = asCast S T v := by
  cases T <;> rfl

/-! ### Claims -/

/-- C1: for every supported variant `S`, every supported variant `T`, and
every value `x` of variant `S`, the generic dispatch `x.as_::<T>()` equals
`T::cast_from(x)`, which in turn equals the concrete per-target conversion
method for `T` applied to `x` (for example `x.as_u8()` when `T` is `u8`). -/
theorem C1_dispatch_refinement :
    (∀ (S T : Ty) (v : PVal), as_ S T v = cast_from T S v) ∧
      ∀ (S : Ty) (v : PVal),
        cast_from Ty.usize S v = as_usize S v ∧
        cast_from Ty.isize S v = as_isize S v ∧
        cast_from Ty.u128 S v = as_u128 S v ∧
        cast_from Ty.i128 S v = as_i128 S v ∧
        cast_from Ty.u64 S v = as_u64 S v ∧
        cast_from Ty.i64 S v = as_i64 S v ∧
        cast_from Ty.u32 S v = as_u32 S v ∧
        cast_from Ty.i32 S v = as_i32 S v ∧
        cast_from Ty.u16 S v = as_u16 S v ∧
        cast_from Ty.i16 S v = as_i16 S v ∧
        cast_from Ty.u8 S v = as_u8 S v ∧
        cast_from Ty.i8 S v = as_i8 S v ∧
        cast_from Ty.f32 S v = as_f32 S v ∧
        cast_from Ty.f64 S v = as_f64 S v :=
  ⟨fun _ _ _ => rfl, fun _ _ =>
    ⟨rfl, rfl, rfl, rfl, rfl, rfl, rfl, rfl, rfl, rfl, rfl, rfl, rfl, rfl⟩⟩

/-- C2: every conversion operation (the generic dispatch `as_`, the
generic `cast_from`, and the per-target method body `asCast`) is total:
on every well-formed value of every source variant it produces a
well-formed value of the target variant. -/
theorem C2_totality (S T : Ty) (v : PVal) (h : wf S v) :
    wf T (as_ S T v) ∧ wf T (cast_from T S v) ∧ wf T (asCast S T v) := by
  have hc := wf_asCast S T v h
  refine ⟨?_, ?_, hc⟩
  · rw [as_eq_asCast]; exact hc
  · show wf T (as_ S T v)
    rw [as_eq_asCast]; exact hc

theorem C2_totality_witness :
    wf Ty.i32 (PVal.i (-5)) ∧
      (wf Ty.u8 (as_ Ty.i32 Ty.u8 (PVal.i (-5))) ∧
        wf Ty.u8 (cast_from Ty.u8 Ty.i32 (PVal.i (-5))) ∧
        wf Ty.u8 (asCast Ty.i32 Ty.u8 (PVal.i (-5)))) :=
  ⟨by decide, C2_totality Ty.i32 Ty.u8 (PVal.i (-5)) (by decide)⟩

/-- C3: converting a well-formed value to its own variant is the
identity, for all supported variants. -/
theorem C3_identity (S : Ty) (v : PVal) (h : wf S v) : as_ S S v = v := by
  rw [as_eq_asCast]
  cases v with
  | i x =>
    rcases h with ⟨hS, h1, h2⟩
    simp only [asCast, hS, if_false, Bool.false_eq_true]
    rw [iwrap_id S.sgn S.w (Ty.w_pos S) x h1 h2]
  | f φ =>
    have hS : S.isFloat = true := h
    simp only [asCast, hS, if_true]
    rw [if_neg]
    rintro ⟨rfl, h2⟩
    exact Ty.noConfusion h2

theorem C3_identity_witness :
    wf Ty.u8 (PVal.i 7) ∧ as_ Ty.u8 Ty.u8 (PVal.i 7) = PVal.i 7 :=
  ⟨by decide, C3_identity Ty.u8 (PVal.i 7) (by decide)⟩

/-- C4: for integer variants `S` and `T` and a value of variant `S`
lying inside the representable range of `T`, converting `S → T → S`
reproduces the value exactly. -/
theorem C4_roundtrip (S T : Ty) (x : Int) (hT : T.isFloat = false)
    (hwf : wf S (PVal.i x)) (hrange : inRange T x) :
    as_ T S (as_ S T (PVal.i x)) = PVal.i x := by
  rcases hwf with ⟨hS, h1, h2⟩
  rw [as_eq_asCast, as_eq_asCast]
  have e1 : asCast S T (PVal.i x) = PVal.i x := by
    simp only [asCast, hT, if_false, Bool.false_eq_true]
    rw [iwrap_id T.sgn T.w (Ty.w_pos T) x hrange.1 hrange.2]
  rw [e1]
  simp only [asCast, hS, if_false, Bool.false_eq_true]
  rw [iwrap_id S.sgn S.w (Ty.w_pos S) x h1 h2]

theorem C4_roundtrip_witness :
    (Ty.u32.isFloat = false ∧ wf Ty.u8 (PVal.i 200) ∧ inRange Ty.u32 200) ∧
      as_ Ty.u32 Ty.u8 (as_ Ty.u8 Ty.u32 (PVal.i 200)) = PVal.i 200 :=
  ⟨by decide, C4_roundtrip Ty.u8 Ty.u32 200 (by decide) (by decide) (by decide)⟩

/-- C5: integer-to-integer conversion to an unsigned target of width `w`
reduces the source value modulo `2 ^ w` (two's-complement truncation,
high-order bits discarded); in particular converting the integer 300 to
`u8` yields 44. -/
theorem C5_unsigned_trunc :
    (∀ (S T : Ty) (x : Int), T.isFloat = false → T.sgn = false →
        wf S (PVal.i x) → as_ S T (PVal.i x) = PVal.i (x % 2 ^ T.w)) ∧
      as_ Ty.i32 Ty.u8 (PVal.i 300) = PVal.i 44 := by
  constructor
  · intro S T x hT hsgn _hwf
    rw [as_eq_asCast]
    simp only [asCast, hT, if_false, Bool.false_eq_true]
    rw [hsgn]
    simp [iwrap]
  · decide

theorem C5_unsigned_trunc_witness :
    (Ty.u8.isFloat = false ∧ Ty.u8.sgn = false ∧ wf Ty.u32 (PVal.i 300)) ∧
      as_ Ty.u32 Ty.u8 (PVal.i 300) = PVal.i (300 % 2 ^ Ty.u8.w) :=
  ⟨by decide, C5_unsigned_trunc.1 Ty.u32 Ty.u8 300 (by decide) (by decide) (by decide)⟩

/-- C6: same-width conversion between a signed and an unsigned integer
variant preserves the two's-complement bit pattern (the result is
congruent to the input modulo `2 ^ w` and lies in the target's range);
in particular `(-1 : i32) as u32` is 4294967295. -/
theorem C6_same_width_reinterpret :
    (∀ (S T : Ty) (x : Int), S.isFloat = false → T.isFloat = false →
        T.w = S.w → T.sgn = !S.sgn → wf S (PVal.i x) →
        ∃ y : Int, as_ S T (PVal.i x) = PVal.i y ∧
          y % 2 ^ S.w = x % 2 ^ S.w ∧ inRange T y) ∧
      as_ Ty.i32 Ty.u32 (PVal.i (-1)) = PVal.i 4294967295 := by
  constructor
  · intro S T x _hS hT hw _hsgn _hwf
    refine ⟨iwrap T.sgn T.w x, ?_, ?_, ?_⟩
    · rw [as_eq_asCast]
      simp only [asCast, hT, if_false, Bool.false_eq_true]
    · rw [← hw]
      exact iwrap_emod T.sgn T.w x
    · exact iwrap_inRange T.sgn T.w (Ty.w_pos T) x
  · decide

theorem C6_same_width_reinterpret_witness :
    (Ty.i32.isFloat = false ∧ Ty.u32.isFloat = false ∧ Ty.u32.w = Ty.i32.w ∧
        Ty.u32.sgn = !Ty.i32.sgn ∧ wf Ty.i32 (PVal.i (-1))) ∧
      ∃ y : Int, as_ Ty.i32 Ty.u32 (PVal.i (-1)) = PVal.i y ∧
        y % 2 ^ Ty.i32.w = (-1) % 2 ^ Ty.i32.w ∧ inRange Ty.u32 y :=
  ⟨by decide, C6_same_width_reinterpret.1 Ty.i32 Ty.u32 (-1) (by decide) (by decide)
    (by decide) (by decide) (by decide)⟩

/-- C7: converting a floating-point NaN to any integer variant yields 0. -/
theorem C7_nan_to_zero (S T : Ty) (_hS : S.isFloat = true) (hT : T.isFloat = false) :
    as_ S T (PVal.f FP.nan) = PVal.i 0 := by
  rw [as_eq_asCast]
  simp only [asCast, hT, if_false, Bool.false_eq_true, fToInt]

theorem C7_nan_to_zero_witness :
    (Ty.f32.isFloat = true ∧ Ty.u8.isFloat = false) ∧
      as_ Ty.f32 Ty.u8 (PVal.f FP.nan) = PVal.i 0 :=
  ⟨by decide, C7_nan_to_zero Ty.f32 Ty.u8 (by decide) (by decide)⟩

theorem rtrunc_eq_floor {q : ℚ} (h : 0 ≤ q) : rtrunc q = ⌊q⌋ := by
  rw [rtrunc, Rat.floor_def, Int.tdiv_eq_ediv (Rat.num_nonneg.mpr h) (Int.natCast_nonneg _)]

theorem rtrunc_neg_eq (q : ℚ) : rtrunc (-q) = -(rtrunc q) := by
  simp [rtrunc, Rat.neg_num, Rat.neg_den, Int.neg_tdiv]

theorem rtrunc_eq_ceil {q : ℚ} (h : q ≤ 0) : rtrunc q = ⌈q⌉ := by
  have h2 : (0 : ℚ) ≤ -q := neg_nonneg.mpr h
  have e1 : rtrunc (-q) = ⌊-q⌋ := rtrunc_eq_floor h2
  have e2 : rtrunc (-q) = -(rtrunc q) := rtrunc_neg_eq q
  have e3 : ⌊-q⌋ = -⌈q⌉ := Int.floor_neg
  omega

theorem rtrunc_ge {n : Int} (hn : 0 ≤ n) {q : ℚ} (h : (n : ℚ) < q) : n ≤ rtrunc q := by
  have hq : (0 : ℚ) ≤ q := le_trans (by exact_mod_cast hn) h.le
  rw [rtrunc_eq_floor hq]
  exact Int.le_floor.mpr h.le

theorem rtrunc_le {n : Int} (hn : n ≤ 0) {q : ℚ} (h : q < (n : ℚ)) : rtrunc q ≤ n := by
  have hq : q ≤ (0 : ℚ) := le_trans h.le (by exact_mod_cast hn)
  rw [rtrunc_eq_ceil hq]
  exact Int.ceil_le.mpr h.le

theorem fToInt_sat_hi (lo hi : Int) (hhi : 0 ≤ hi) {q : ℚ} (h : (hi : ℚ) < q) :
    fToInt lo hi (FP.finite q) = hi := by
  have h1 : hi ≤ rtrunc q := rtrunc_ge hhi h
  simp only [fToInt]
  exact min_eq_left (le_trans h1 (le_max_right _ _))

theorem fToInt_sat_lo (lo hi : Int) (hlo : lo ≤ 0) (hlh : lo ≤ hi) {q : ℚ}
    (h : q < (lo : ℚ)) : fToInt lo hi (FP.finite q) = lo := by
  have h1 : rtrunc q ≤ lo := rtrunc_le hlo h
  simp only [fToInt]
  rw [max_eq_left h1, min_eq_right hlh]

/-- C8: float-to-integer conversion saturates out-of-range values to the
target integer's bounds: for every float source variant and integer
target variant, a finite value above the target's maximum converts to
the maximum and one below the target's minimum converts to the minimum
(likewise the two infinities); in particular `f64::MAX as u8` is 255 and
`f64::MIN as u8` (the most negative value, `-f64::MAX`) is 0. -/
theorem C8_saturation :
    (∀ (S T : Ty) (q : ℚ), S.isFloat = true → T.isFloat = false →
        ((intMax T.sgn T.w : ℚ) < q →
            as_ S T (PVal.f (FP.finite q)) = PVal.i (intMax T.sgn T.w)) ∧
          (q < (intMin T.sgn T.w : ℚ) →
            as_ S T (PVal.f (FP.finite q)) = PVal.i (intMin T.sgn T.w))) ∧
      (∀ (S T : Ty), S.isFloat = true → T.isFloat = false →
        as_ S T (PVal.f (FP.inf false)) = PVal.i (intMax T.sgn T.w) ∧
          as_ S T (PVal.f (FP.inf true)) = PVal.i (intMin T.sgn T.w)) ∧
      (as_ Ty.f64 Ty.u8 (PVal.f (FP.finite (Ty.maxF Ty.f64))) = PVal.i 255 ∧
        as_ Ty.f64 Ty.u8 (PVal.f (FP.finite (-Ty.maxF Ty.f64))) = PVal.i 0) := by
  refine ⟨?_, ?_, ?_⟩
  · intro S T q _hS hT
    constructor
    · intro h
      rw [as_eq_asCast]
      simp only [asCast, hT, if_false, Bool.false_eq_true]
      rw [fToInt_sat_hi _ _ (intMax_nonneg T.sgn T.w) h]
    · intro h
      rw [as_eq_asCast]
      simp only [asCast, hT, if_false, Bool.false_eq_true]
      rw [fToInt_sat_lo _ _ (intMin_nonpos T.sgn T.w)
        (le_trans (intMin_nonpos T.sgn T.w) (intMax_nonneg T.sgn T.w)) h]
  · intro S T _hS hT
    constructor <;>
      (rw [as_eq_asCast]; simp [asCast, hT, fToInt])
  · have key : ∀ n : ℤ, rtrunc ((n : ℤ) : ℚ) = n := fun n => by
      simp [rtrunc, Rat.num_intCast, Rat.den_intCast]
    have hq : Ty.maxF Ty.f64 = ((2 ^ 1024 - 2 ^ 971 : ℤ) : ℚ) := by
      simp only [Ty.maxF]; push_cast; ring
    have htr : rtrunc (Ty.maxF Ty.f64) = 2 ^ 1024 - 2 ^ 971 := by
      rw [hq]; exact key _
    have htr2 : rtrunc (-Ty.maxF Ty.f64) = -(2 ^ 1024 - 2 ^ 971) := by
      rw [hq, ← Int.cast_neg]; exact key _
    constructor
    · rw [as_eq_asCast]
      simp only [asCast, fToInt, Ty.isFloat, if_false, Bool.false_eq_true,
        intMin, intMax, Ty.sgn, Ty.w, htr]
      rw [max_eq_right (by norm_num), min_eq_left (by norm_num)]
      decide
    · rw [as_eq_asCast]
      simp only [asCast, fToInt, Ty.isFloat, if_false, Bool.false_eq_true,
        intMin, intMax, Ty.sgn, Ty.w, htr2]
      rw [max_eq_left (by norm_num), min_eq_right (by norm_num)]

theorem C8_saturation_witness :
    (Ty.f64.isFloat = true ∧ Ty.u8.isFloat = false ∧
        (intMax Ty.u8.sgn Ty.u8.w : ℚ) < 300) ∧
      as_ Ty.f64 Ty.u8 (PVal.f (FP.finite 300)) = PVal.i (intMax Ty.u8.sgn Ty.u8.w) :=
  ⟨⟨by decide, by decide, by norm_num [intMax, Ty.sgn, Ty.w]⟩,
    (C8_saturation.1 Ty.f64 Ty.u8 300 (by decide) (by decide)).1
      (by norm_num [intMax, Ty.sgn, Ty.w])⟩

/-- C9 counterexample: the trait does not expose 13 per-target conversion
operations; its method list has a different length. -/
theorem C9_cex_thirteen : ¬ methodTargets.length = 13 := by decide

/-- C9 (amended): the trait exposes exactly 14 explicit per-target
conversion operations, one for each variant of the data model
(6 unsigned widths, 6 signed widths, 2 floating precisions), without
repetition, and each returns a well-formed value of its named target
variant on every well-formed input. -/
theorem C9_fourteen_methods :
    methodTargets.length = 14 ∧ methodTargets.Nodup ∧
      (∀ t : Ty, t ∈ methodTargets) ∧
      ∀ (S T : Ty) (v : PVal), wf S v → T ∈ methodTargets → wf T (as_ S T v) := by
  refine ⟨by decide, by decide, fun t => by cases t <;> decide, ?_⟩
  intro S T v h _
  rw [as_eq_asCast]
  exact wf_asCast S T v h

theorem C9_fourteen_methods_witness :
    (wf Ty.u8 (PVal.i 1) ∧ Ty.f64 ∈ methodTargets) ∧
      wf Ty.f64 (as_ Ty.u8 Ty.f64 (PVal.i 1)) :=
  ⟨⟨by decide, by decide⟩,
    C9_fourteen_methods.2.2.2 Ty.u8 Ty.f64 (PVal.i 1) (by decide) (by decide)⟩

/-- C10: for same-width integer variants of opposite signedness, the
round trip through the other variant is the identity on every value of
the source variant, including values not representable in the
intermediate variant. -/
theorem C10_opposite_roundtrip (S T : Ty) (x : Int) (hS : S.isFloat = false)
    (hT : T.isFloat = false) (hw : T.w = S.w) (_hsgn : T.sgn = !S.sgn)
    (hx : inRange S x) :
    as_ T S (as_ S T (PVal.i x)) = PVal.i x := by
  rw [as_eq_asCast, as_eq_asCast]
  have e1 : asCast S T (PVal.i x) = PVal.i (iwrap T.sgn T.w x) := by
    simp only [asCast, hT, if_false, Bool.false_eq_true]
  rw [e1]
  simp only [asCast, hS, if_false, Bool.false_eq_true]
  have hmod : iwrap T.sgn T.w x % 2 ^ S.w = x % 2 ^ S.w := by
    rw [← hw]; exact iwrap_emod T.sgn T.w x
  rw [iwrap_congr S.sgn S.w hmod,
    iwrap_id S.sgn S.w (Ty.w_pos S) x hx.1 hx.2]

theorem C10_opposite_roundtrip_witness :
    (Ty.u32.isFloat = false ∧ Ty.i32.isFloat = false ∧ Ty.i32.w = Ty.u32.w ∧
        Ty.i32.sgn = !Ty.u32.sgn ∧ inRange Ty.u32 4000000000) ∧
      as_ Ty.i32 Ty.u32 (as_ Ty.u32 Ty.i32 (PVal.i 4000000000)) = PVal.i 4000000000 :=
  ⟨by decide, C10_opposite_roundtrip Ty.u32 Ty.i32 4000000000 (by decide) (by decide)
    (by decide) (by decide) (by decide)⟩
